import Mathlib

/-!
Verification of the softball lineup optimizer.

This file gives a shallow embedding, in Lean, of the two Python scripts of
the repository (`softball_simulation.py` and `test_legal_lineups.py`) and
proves or refutes the specified properties about them.

Conventions of the embedding:
* Python dicts of the roster become association lists (`List (String × ℚ)`);
  skill ratings are exact rationals.
* `random.random()` draws become explicit parameters `u : ℚ` (one per
  at-bat, intended range `0 ≤ u < 1`); a whole simulation takes a stream
  of draws `us : ℕ → ℚ`.  (For a name outside `PLAYERS`, the Python code
  returns before drawing; the unused parameter is harmless since all
  statements quantify over every draw stream.)
* Python `int(x)` is truncation toward zero (`truncQ`).
* The `while` loop of `simulate_inning` becomes a fuel-indexed recursion
  returning `Option`; `none` means the fuel ran out (we prove it never
  does for sufficient fuel).
-/

/-- The `PLAYERS` dict of `softball_simulation.py` (name ↦ average bases
per at-bat), in source order.  `Srishti` and `Allison` are commented out in
the source and hence absent. -/
def PLAYERS : List (String × ℚ) :=
  [("Ross", 65/100), ("Brendon", 9/10), ("Lindsey", 3/10), ("Aidan", 125/100),
   ("Robbie", 65/100), ("Kaitlin", 45/100), ("Kate", 2/10), ("Thomas", 5/10),
   ("Jake", 6/10), ("Josh", 6/10)]

/-- `PLAYING = list(PLAYERS.keys())`. -/
def PLAYING : List String := PLAYERS.map Prod.fst

/-- The `WOMEN` set of `softball_simulation.py` (it also names the two
commented-out players). -/
def WOMEN : List String := ["Lindsey", "Kate", "Kaitlin", "Srishti", "Allison"]

/-- `MEN = set(PLAYERS.keys()) - WOMEN`. -/
def MEN : List String := PLAYING.filter (fun p => decide (¬ p ∈ WOMEN))

/-- Membership test `player in MEN` used by the legality filter. -/
def isMan (p : String) : Bool := decide (p ∈ MEN)

/-- One scanning pass of `is_legal_lineup` in `softball_simulation.py`:
walk the list keeping a count of consecutive men, reset on a woman, fail as
soon as the count exceeds 3.  The counter is the second argument (the
Python code starts it at 0). -/
def scanMen : List String → ℕ → Bool
  | [], _ => true
  | player :: rest, consecutive_men =>
    if isMan player then
      if consecutive_men + 1 > 3 then false
      else scanMen rest (consecutive_men + 1)
    else scanMen rest 0

/-- `is_legal_lineup` of `softball_simulation.py`: the linear scan must
pass, and so must the scan of the lineup extended by its own first
3 elements (`wrap_lineup = list(lineup) + list(lineup)[:3]`). -/
def is_legal_lineup (lineup : List String) : Bool :=
  scanMen lineup 0 && scanMen (lineup ++ lineup.take 3) 0

/-- `generate_legal_lineups` of `softball_simulation.py`: all permutations
of the roster, filtered by `is_legal_lineup`. -/
def generate_legal_lineups (all_players : List String) : List (List String) :=
  all_players.permutations.filter is_legal_lineup

/-- Spec-side predicate (the words of the claims about the legality
filter): the sequence contains a contiguous run of strictly more than
3 men. -/
def hasLongMenRun (l : List String) : Prop :=
  ∃ a m b, l = a ++ m ++ b ∧ 3 < m.length ∧ ∀ x ∈ m, isMan x = true

/-- Python `int(q)`: truncation toward zero. -/
def truncQ (q : ℚ) : ℤ := if 0 ≤ q then ⌊q⌋ else ⌈q⌉

/-- The rating-to-outcome core of `simulate_at_bat` in
`softball_simulation.py`, with the uniform draw `u` made explicit:
`decimal_part = avg_bases - int(avg_bases)`; the outcome is
`min(int(avg_bases) + 1, 4)` if `u < decimal_part`, and
`min(int(avg_bases), 4)` otherwise. -/
def atBatOutcome (avg_bases : ℚ) (u : ℚ) : ℤ :=
  let ip : ℤ := truncQ avg_bases
  let decimal_part : ℚ := avg_bases - (ip : ℚ)
  if u < decimal_part then min (ip + 1) 4 else min ip 4

/-- `simulate_at_bat` of `softball_simulation.py`: a name not in `PLAYERS`
is an automatic out (0), returned before the random draw is consumed;
otherwise the looked-up rating drives `atBatOutcome`. -/
def simulate_at_bat (player_name : String) (u : ℚ) : ℤ :=
  match PLAYERS.lookup player_name with
  | none => 0
  | some avg_bases => atBatOutcome avg_bases u

namespace TestScript

/-- The `players` dict of `test_legal_lineups.py` (Jake and Josh have
rating 0.8 here, unlike the simulation script). -/
def players : List (String × ℚ) :=
  [("Ross", 65/100), ("Brendon", 9/10), ("Lindsey", 3/10), ("Aidan", 125/100),
   ("Robbie", 65/100), ("Kaitlin", 45/100), ("Kate", 2/10), ("Thomas", 5/10),
   ("Jake", 8/10), ("Josh", 8/10)]

/-- The `women` set of `test_legal_lineups.py`. -/
def women : List String := ["Lindsey", "Kate", "Kaitlin"]

/-- `men = set(players.keys()) - women` of `test_legal_lineups.py`. -/
def men : List String := (players.map Prod.fst).filter (fun p => decide (¬ p ∈ women))

/-- `is_legal_lineup` of `test_legal_lineups.py`: for every window start
`i` in `range(len - 2)`, count the men among positions `i, i+1, i+2`
(each guarded by `i + j < len`) and fail if that count exceeds 3. -/
def is_legal_lineup (lineup : List String) : Bool :=
  (List.range (lineup.length - 2)).all fun i =>
    decide (((List.range 3).countP fun j =>
      decide (i + j < lineup.length) && decide (lineup.getD (i + j) "" ∈ men)) ≤ 3)

end TestScript

/-- The mutable locals of `simulate_inning`: `bases` (the 4-slot array
`[None, None, None, None]`, 1st/2nd/3rd/home), `runs`, `outs`, and
`player_index`.  The loop increments `player_index` every at-bat, so at
the top of the loop it also counts the at-bats taken so far. -/
structure InningState where
  bases : List (Option String)
  runs : ℕ
  outs : ℕ
  player_index : ℕ
deriving Repr, DecidableEq

/-- Number of occupied slots of a base array. -/
def occ (bases : List (Option String)) : ℕ := bases.countP fun o => o.isSome

/-- One iteration of the runner-advancing `for i in range(3, -1, -1)` loop
of `simulate_inning`, at index `i`: an occupant of slot `i` moves to
`i + bases_gained`, scoring (slot vacated, one run) when that reaches 4 or
more.  The two Python assignments `bases[new_position] = bases[i]` and
`bases[i] = None` are the two `List.set`s, in order. -/
def runnerStep (bases_gained : ℤ) (i : ℕ) (st : List (Option String) × ℕ) :
    List (Option String) × ℕ :=
  match st.1.getD i none with
  | none => st
  | some p =>
    let new_position : ℤ := (i : ℤ) + bases_gained
    if new_position ≥ 4 then (st.1.set i none, st.2 + 1)
    else ((st.1.set new_position.toNat p).set i none, st.2)

/-- The whole `bases_gained != 0` branch of `simulate_inning`: advance the
runners from slot 3 down to slot 0, then place the batter (`runs += 1` if
`bases_gained >= 4`, else `bases[bases_gained - 1] = player`).  Gains are
nonnegative wherever this is used (see `simulate_at_bat_range`), so the
`toNat` coercions are faithful. -/
def hitStep (bases_gained : ℤ) (player : String) (st : List (Option String) × ℕ) :
    List (Option String) × ℕ :=
  let adv := runnerStep bases_gained 0 (runnerStep bases_gained 1
    (runnerStep bases_gained 2 (runnerStep bases_gained 3 st)))
  if bases_gained ≥ 4 then (adv.1, adv.2 + 1)
  else (adv.1.set (bases_gained.toNat - 1) (some player), adv.2)

/-- One full at-bat of `simulate_inning`, with the at-bat outcome
`bases_gained` passed in: an out if it is 0, otherwise `hitStep`;
`player_index` advances either way. -/
def atBatTransition (players : List String) (bases_gained : ℤ) (s : InningState) :
    InningState :=
  let player := players.getD (s.player_index % players.length) ""
  if bases_gained = 0 then
    { s with outs := s.outs + 1, player_index := s.player_index + 1 }
  else
    let st := hitStep bases_gained player (s.bases, s.runs)
    { bases := st.1, runs := st.2, outs := s.outs, player_index := s.player_index + 1 }

/-- The state at the top of the `while` loop of `simulate_inning`. -/
def initialState : InningState := ⟨[none, none, none, none], 0, 0, 0⟩

/-- The `while outs < 3 and runs < 6` loop of `simulate_inning`, as a
fuel-indexed recursion over an at-bat outcome stream `g` (indexed by
`player_index`, which counts the at-bats).  `none` means the fuel ran
out; `some` is the state on leaving the loop, by the guard failing or by
the `if not player_list: break` defensive check. -/
def inningLoopF (players : List String) (g : ℕ → ℤ) : ℕ → InningState → Option InningState
  | 0, _ => none
  | fuel + 1, s =>
    if s.outs < 3 ∧ s.runs < 6 then
      if players = [] then some s
      else inningLoopF players g fuel (atBatTransition players (g s.player_index) s)
    else some s

/-- `simulate_inning`: run the loop from the initial state, drawing the
at-bat outcome of at-bat `n` by calling `simulate_at_bat` on the batter
`player_list[n % len(player_list)]` with the uniform draw `us n`, and
return the final `runs`. -/
def simulate_inning (players : List String) (us : ℕ → ℚ) (fuel : ℕ) : Option ℕ :=
  (inningLoopF players
      (fun n => simulate_at_bat (players.getD (n % players.length) "") (us n))
      fuel initialState).map InningState.runs

/-- The sequence of states seen at the top of the `while` loop of
`simulate_inning`: `inningTrace players g n` is the state after `n`
completed loop iterations (the state stops changing once the loop would
have exited). -/
def inningTrace (players : List String) (g : ℕ → ℤ) : ℕ → InningState
  | 0 => initialState
  | n + 1 =>
    let s := inningTrace players g n
    if (s.outs < 3 ∧ s.runs < 6) ∧ players ≠ [] then
      atBatTransition players (g s.player_index) s
    else s

/-- The best-lineup update of `find_best_lineup` in
`softball_simulation.py`: replace the best-so-far pair only on strict
improvement of the average (`if avg_runs > best_avg_runs`). -/
def searchStep (best : Option (List String) × ℚ) (r : List String × ℚ) :
    Option (List String) × ℚ :=
  if r.2 > best.2 then (some r.1, r.2) else best

/-- The best-tracking loop of `find_best_lineup`, abstracted over the
evaluated `(lineup, average)` pairs produced by `simulate_multiple_games`
in evaluation order, starting from `best_lineup = None` and
`best_avg_runs = 0` as in the source. -/
def find_best_fold (results : List (List String × ℚ)) : Option (List String) × ℚ :=
  results.foldl searchStep (none, 0)

/-! ## Helper lemmas about the legality scan -/

theorem hasLongMenRun_cons {rest : List String} (x : String) (h : hasLongMenRun rest) :
    hasLongMenRun (x :: rest) := by
  obtain ⟨a, m, b, heq, hlen, hall⟩ := h
  exact ⟨x :: a, m, b, by rw [heq]; rfl, hlen, hall⟩

theorem hasLongMenRun_append (l t : List String) (h : hasLongMenRun l) :
    hasLongMenRun (l ++ t) := by
  obtain ⟨a, m, b, rfl, hlen, hall⟩ := h
  exact ⟨a, m, b ++ t, by simp [List.append_assoc], hlen, hall⟩

/-- Characterisation of one scanning pass started at counter `c ≤ 3`: it
fails exactly when an all-men prefix pushes the counter over 3, or a run
of more than 3 men occurs somewhere in the list. -/
theorem scanMen_eq_false_iff (l : List String) : ∀ c : ℕ, c ≤ 3 →
    (scanMen l c = false ↔
      (∃ p q, l = p ++ q ∧ (∀ x ∈ p, isMan x = true) ∧ 3 < c + p.length) ∨ hasLongMenRun l) := by
  induction l with
  | nil =>
    intro c hc
    constructor
    · intro h; simp [scanMen] at h
    · rintro (⟨p, q, heq, _, hlen⟩ | ⟨a, m, b, heq, hlen, _⟩)
      · obtain ⟨rfl, rfl⟩ := List.append_eq_nil.mp heq.symm
        simp at hlen; omega
      · obtain ⟨h2, rfl⟩ := List.append_eq_nil.mp heq.symm
        obtain ⟨rfl, rfl⟩ := List.append_eq_nil.mp h2
        simp at hlen
  | cons x rest IH =>
    intro c hc
    by_cases hm : isMan x = true
    · by_cases hc3 : c + 1 > 3
      · rw [show scanMen (x :: rest) c = false by simp [scanMen, hm, hc3]]
        constructor
        · intro _
          exact Or.inl ⟨[x], rest, rfl, by simp [hm], by simp; omega⟩
        · intro _; rfl
      · rw [show scanMen (x :: rest) c = scanMen rest (c + 1) by simp [scanMen, hm, hc3]]
        rw [IH (c + 1) (by omega)]
        constructor
        · rintro (⟨p, q, rfl, hall, hlen⟩ | hrun)
          · refine Or.inl ⟨x :: p, q, rfl, ?_, by simp; omega⟩
            intro y hy
            rcases List.mem_cons.mp hy with rfl | hy
            · exact hm
            · exact hall y hy
          · exact Or.inr (hasLongMenRun_cons x hrun)
        · rintro (⟨p, q, heq, hall, hlen⟩ | ⟨a, m, b, heq, hmlen, hallm⟩)
          · cases p with
            | nil => simp at heq hlen; omega
            | cons y p' =>
              rw [List.cons_append] at heq
              injection heq with h1 h2
              refine Or.inl ⟨p', q, h2, fun z hz => hall z (List.mem_cons_of_mem y hz), ?_⟩
              simp at hlen; omega
          · cases a with
            | nil =>
              simp only [List.nil_append] at heq
              cases m with
              | nil => simp at hmlen
              | cons z m' =>
                rw [List.cons_append] at heq
                injection heq with h1 h2
                refine Or.inl ⟨m', b, h2, fun y hy => hallm y (List.mem_cons_of_mem z hy), ?_⟩
                simp at hmlen; omega
            | cons y a' =>
              rw [List.cons_append, List.cons_append] at heq
              injection heq with h1 h2
              exact Or.inr ⟨a', m, b, h2, hmlen, hallm⟩
    · have hm' : isMan x = false := by revert hm; cases isMan x <;> simp
      rw [show scanMen (x :: rest) c = scanMen rest 0 by simp [scanMen, hm']]
      rw [IH 0 (by omega)]
      constructor
      · rintro (⟨p, q, rfl, hall, hlen⟩ | hrun)
        · exact Or.inr ⟨[x], p, q, rfl, by simp at hlen ⊢; omega, hall⟩
        · exact Or.inr (hasLongMenRun_cons x hrun)
      · rintro (⟨p, q, heq, hall, hlen⟩ | ⟨a, m, b, heq, hmlen, hallm⟩)
        · cases p with
          | nil => simp at heq hlen; omega
          | cons y p' =>
            rw [List.cons_append] at heq
            injection heq with h1 h2
            subst h1
            exact absurd (hall x (List.mem_cons_self x p')) hm
        · cases a with
          | nil =>
            simp only [List.nil_append] at heq
            cases m with
            | nil => simp at hmlen
            | cons z m' =>
              rw [List.cons_append] at heq
              injection heq with h1 h2
              subst h1
              exact absurd (hallm x (List.mem_cons_self x m')) hm
          | cons y a' =>
            rw [List.cons_append, List.cons_append] at heq
            injection heq with h1 h2
            exact Or.inr ⟨a', m, b, h2, hmlen, hallm⟩

/-- A scanning pass started at counter 0 fails exactly on a run of more
than 3 consecutive men. -/
theorem scanMen_zero_eq_false_iff (l : List String) :
    scanMen l 0 = false ↔ hasLongMenRun l := by
  rw [scanMen_eq_false_iff l 0 (by omega)]
  constructor
  · rintro (⟨p, q, rfl, hall, hlen⟩ | h)
    · exact ⟨[], p, q, rfl, by omega, hall⟩
    · exact h
  · exact Or.inr

/-! ## Helper lemmas about the at-bat model -/

theorem lookup_mem (l : List (String × ℚ)) (a : String) (q : ℚ)
    (h : l.lookup a = some q) : (a, q) ∈ l := by
  induction l with
  | nil => simp [List.lookup] at h
  | cons kv tl IH =>
    obtain ⟨k, v⟩ := kv
    rw [List.lookup] at h
    split at h
    · rename_i hk
      injection h with h
      subst h
      have : a = k := by simpa using hk
      subst this
      exact List.mem_cons_self _ _
    · exact List.mem_cons_of_mem _ (IH h)

theorem atBatOutcome_range (q u : ℚ) (h0 : 0 ≤ q) (h2 : q < 2) :
    0 ≤ atBatOutcome q u ∧ atBatOutcome q u ≤ 2 := by
  have ht : truncQ q = ⌊q⌋ := if_pos h0
  have hf0 : 0 ≤ ⌊q⌋ := Int.floor_nonneg.mpr h0
  have hf1 : ⌊q⌋ < 2 := Int.floor_lt.mpr (by exact_mod_cast h2)
  simp only [atBatOutcome, ht]
  split <;> constructor <;> omega

/-- Every rating in `PLAYERS` lies in `[0, 2)`, so every at-bat of this
roster gains 0, 1 or 2 bases — and an unknown name gains 0. -/
theorem simulate_at_bat_range (player_name : String) (u : ℚ) :
    0 ≤ simulate_at_bat player_name u ∧ simulate_at_bat player_name u ≤ 2 := by
  unfold simulate_at_bat
  cases h : PLAYERS.lookup player_name with
  | none => simp
  | some q =>
    have hmem := lookup_mem PLAYERS player_name q h
    have hq : 0 ≤ q ∧ q < 2 := by
      simp only [PLAYERS, List.mem_cons, List.not_mem_nil, or_false, Prod.mk.injEq] at hmem
      rcases hmem with ⟨_, rfl⟩ | ⟨_, rfl⟩ | ⟨_, rfl⟩ | ⟨_, rfl⟩ | ⟨_, rfl⟩ |
        ⟨_, rfl⟩ | ⟨_, rfl⟩ | ⟨_, rfl⟩ | ⟨_, rfl⟩ | ⟨_, rfl⟩ <;> norm_num
    exact atBatOutcome_range q u hq.1 hq.2

/-- Evaluation lemma: a Ross at-bat under draw 0 is a single
(rating 0.65, so the draw falls below the fractional part). -/
theorem at_bat_Ross : simulate_at_bat "Ross" 0 = 1 := by
  simp +decide [simulate_at_bat, atBatOutcome, truncQ, PLAYERS, List.lookup]
  norm_num

/-- Evaluation lemma: an Aidan at-bat under draw 0 is a double
(rating 1.25, so the draw falls below the fractional part 0.25). -/
theorem at_bat_Aidan : simulate_at_bat "Aidan" 0 = 2 := by
  simp +decide [simulate_at_bat, atBatOutcome, truncQ, PLAYERS, List.lookup]
  norm_num

/-! ## Helper lemmas about one at-bat transition -/

/-- Exhaustive check of the hit branch over all 16 occupancy patterns and
all gains 1–4: the number of runners plus the run total grows by exactly
one (the batter), the array keeps its 4 slots, and with a gain of at most
2 the run total grows by at most 2 (only the runners on slots 2 and 3 can
reach home). -/
theorem hitStep_bash (g : ℤ) (h1 : 1 ≤ g) (h4 : g ≤ 4) (p : String)
    (b0 b1 b2 b3 : Option String) (runs : ℕ) :
    occ (hitStep g p ([b0, b1, b2, b3], runs)).1 + (hitStep g p ([b0, b1, b2, b3], runs)).2
        = occ [b0, b1, b2, b3] + runs + 1 ∧
      (hitStep g p ([b0, b1, b2, b3], runs)).1.length = 4 ∧
      (g ≤ 2 → (hitStep g p ([b0, b1, b2, b3], runs)).2 ≤ runs + 2) := by
  interval_cases g <;>
    rcases b0 with _ | p0 <;> rcases b1 with _ | p1 <;>
    rcases b2 with _ | p2 <;> rcases b3 with _ | p3 <;>
    simp [hitStep, runnerStep, occ, List.set] <;> omega

theorem length_eq_four (l : List (Option String)) (h : l.length = 4) :
    ∃ a b c d, l = [a, b, c, d] := by
  rcases l with _ | ⟨a, l⟩
  · simp at h
  rcases l with _ | ⟨b, l⟩
  · simp at h
  rcases l with _ | ⟨c, l⟩
  · simp at h
  rcases l with _ | ⟨d, l⟩
  · simp at h
  rcases l with _ | ⟨e, l⟩
  · exact ⟨a, b, c, d, rfl⟩
  · simp at h

theorem atBatTransition_out (players : List String) (s : InningState) :
    atBatTransition players 0 s =
      { s with outs := s.outs + 1, player_index := s.player_index + 1 } := by
  simp [atBatTransition]

theorem atBatTransition_hit (players : List String) (g : ℤ) (h1 : 1 ≤ g) (h4 : g ≤ 4)
    (s : InningState) (hlen : s.bases.length = 4) :
    (atBatTransition players g s).outs = s.outs ∧
    (atBatTransition players g s).bases.length = 4 ∧
    occ (atBatTransition players g s).bases + (atBatTransition players g s).runs
      = occ s.bases + s.runs + 1 ∧
    (g ≤ 2 → (atBatTransition players g s).runs ≤ s.runs + 2) := by
  obtain ⟨b0, b1, b2, b3, hb⟩ := length_eq_four s.bases hlen
  have hne : ¬ g = 0 := by omega
  obtain ⟨h_occ, h_len, h_le⟩ :=
    hitStep_bash g h1 h4 (players.getD (s.player_index % players.length) "")
      b0 b1 b2 b3 s.runs
  simp only [atBatTransition, if_neg hne]
  rw [hb]
  exact ⟨trivial, h_len, h_occ, h_le⟩

theorem occ_le_four (bases : List (Option String)) (h : bases.length = 4) :
    occ bases ≤ 4 := by
  rw [← h]
  exact List.countP_le_length _

theorem runnerStep_length (g : ℤ) (i : ℕ) (st : List (Option String) × ℕ) :
    (runnerStep g i st).1.length = st.1.length := by
  rw [runnerStep]
  split
  · rfl
  · dsimp only
    split <;> simp

theorem hitStep_length (g : ℤ) (p : String) (st : List (Option String) × ℕ) :
    (hitStep g p st).1.length = st.1.length := by
  rw [hitStep]
  split <;> simp [runnerStep_length]

theorem atBatTransition_length (players : List String) (g : ℤ) (s : InningState) :
    (atBatTransition players g s).bases.length = s.bases.length := by
  rw [atBatTransition]
  split
  · rfl
  · exact hitStep_length _ _ _

/-! ## Helper lemmas about the inning loop -/

/-- Whenever the loop returns, either the batting list was empty or the
exit guard failed (3 outs or at least 6 runs). -/
theorem inningLoopF_exit (players : List String) (g : ℕ → ℤ) :
    ∀ (fuel : ℕ) (s st : InningState), inningLoopF players g fuel s = some st →
      players = [] ∨ 3 ≤ st.outs ∨ 6 ≤ st.runs := by
  intro fuel
  induction fuel with
  | zero => intro s st h; simp [inningLoopF] at h
  | succ fuel IH =>
    intro s st h
    rw [inningLoopF] at h
    split at h
    · split at h
      · exact Or.inl (by assumption)
      · exact IH _ _ h
    · rename_i hcond
      injection h with h
      subst h
      refine Or.inr ?_
      omega

/-- Invariant: with per-at-bat gains of at most 2 (the case for this
roster), the run total can never leave the loop above 7: at loop entry it
is at most 5, and a single at-bat adds at most 2. -/
theorem inningLoopF_runs_le (players : List String) (g : ℕ → ℤ)
    (hg : ∀ n, 0 ≤ g n ∧ g n ≤ 2) :
    ∀ (fuel : ℕ) (s st : InningState), s.bases.length = 4 → s.runs ≤ 7 →
      inningLoopF players g fuel s = some st → st.runs ≤ 7 := by
  intro fuel
  induction fuel with
  | zero => intro s st _ _ h; simp [inningLoopF] at h
  | succ fuel IH =>
    intro s st hlen hruns h
    rw [inningLoopF] at h
    split at h
    · rename_i hcond
      split at h
      · injection h with h; subst h; exact hruns
      · rcases hg s.player_index with ⟨hg0, hg2⟩
        by_cases hz : g s.player_index = 0
        · rw [hz, atBatTransition_out] at h
          exact IH { s with outs := s.outs + 1, player_index := s.player_index + 1 } st
            hlen hruns h
        · obtain ⟨_, hlen2, _, hle2⟩ :=
            atBatTransition_hit players (g s.player_index) (by omega) (by omega) s hlen
          exact IH _ _ hlen2 (by have := hle2 hg2; omega) h
    · injection h with h; subst h; exact hruns

/-- Termination measure: each iteration either raises `outs` (bounded
by 3) or raises the runner-plus-run total by exactly one (bounded by
4 + 6), so the fuel `(3 - outs) + (10 - (occ + runs))` suffices. -/
theorem inningLoopF_total (players : List String) (g : ℕ → ℤ)
    (hg : ∀ n, 0 ≤ g n ∧ g n ≤ 4) (hne : players ≠ []) :
    ∀ (fuel : ℕ) (s : InningState), s.bases.length = 4 →
      (3 - s.outs) + (10 - (occ s.bases + s.runs)) < fuel →
      ∃ st, inningLoopF players g fuel s = some st := by
  intro fuel
  induction fuel with
  | zero => intro s _ h; omega
  | succ fuel IH =>
    intro s hlen hmu
    rw [inningLoopF]
    by_cases hcond : s.outs < 3 ∧ s.runs < 6
    · rw [if_pos hcond, if_neg hne]
      rcases hg s.player_index with ⟨hg0, hg4⟩
      have hocc4 : occ s.bases ≤ 4 := occ_le_four s.bases hlen
      by_cases hz : g s.player_index = 0
      · rw [hz, atBatTransition_out]
        apply IH
        · exact hlen
        · simp only []
          omega
      · obtain ⟨houts, hlen2, hocc, _⟩ :=
          atBatTransition_hit players (g s.player_index) (by omega) hg4 s hlen
        apply IH _ hlen2
        omega
    · exact ⟨s, by rw [if_neg hcond]⟩

theorem inningTrace_length (players : List String) (g : ℕ → ℤ) (n : ℕ) :
    (inningTrace players g n).bases.length = 4 := by
  induction n with
  | zero => rfl
  | succ n IH =>
    rw [inningTrace]
    split
    · rw [atBatTransition_length]
      exact IH
    · exact IH

/-! ## Helper lemmas about the best-lineup fold -/

theorem foldl_searchStep_const (results : List (List String × ℚ))
    (b : Option (List String)) (m : ℚ) (h : ∀ r ∈ results, r.2 ≤ m) :
    results.foldl searchStep (b, m) = (b, m) := by
  induction results with
  | nil => rfl
  | cons r rs IH =>
    have hr : ¬ r.2 > m := not_lt.mpr (h r (List.mem_cons_self r rs))
    rw [List.foldl_cons, searchStep, if_neg hr]
    exact IH fun x hx => h x (List.mem_cons_of_mem r hx)

/-- If some entry strictly beats the initial best value, the fold returns
the earliest entry attaining the maximum value. -/
theorem foldl_searchStep_max (results : List (List String × ℚ)) :
    ∀ (b : Option (List String)) (m : ℚ), (∃ r ∈ results, m < r.2) →
    ∃ pre x post, results = pre ++ x :: post ∧ m < x.2 ∧
      (∀ p ∈ pre, p.2 < x.2) ∧ (∀ r ∈ results, r.2 ≤ x.2) ∧
      results.foldl searchStep (b, m) = (some x.1, x.2) := by
  induction results with
  | nil => rintro b m ⟨r, hr, _⟩; exact absurd hr (List.not_mem_nil r)
  | cons r rs IH =>
    rintro b m ⟨r0, hr0, hm0⟩
    by_cases hr : r.2 > m
    · by_cases hex : ∃ r1 ∈ rs, r.2 < r1.2
      · obtain ⟨pre, x, post, heq, hmx, hpre, hall, hfold⟩ := IH (some r.1) r.2 hex
        refine ⟨r :: pre, x, post, by rw [heq, List.cons_append], lt_trans hr hmx, ?_, ?_, ?_⟩
        · intro p hp
          rcases List.mem_cons.mp hp with rfl | hp
          · exact hmx
          · exact hpre p hp
        · intro q hq
          rcases List.mem_cons.mp hq with rfl | hq
          · exact le_of_lt hmx
          · exact hall q hq
        · rw [List.foldl_cons, searchStep, if_pos hr]
          exact hfold
      · push_neg at hex
        refine ⟨[], r, rs, rfl, hr, by simp, ?_, ?_⟩
        · intro q hq
          rcases List.mem_cons.mp hq with rfl | hq
          · exact le_refl _
          · exact hex q hq
        · rw [List.foldl_cons, searchStep, if_pos hr]
          exact foldl_searchStep_const rs (some r.1) r.2 hex
    · have hrs : ∃ r1 ∈ rs, m < r1.2 := by
        rcases List.mem_cons.mp hr0 with rfl | h0
        · exact absurd hm0 (by simpa using hr)
        · exact ⟨r0, h0, hm0⟩
      obtain ⟨pre, x, post, heq, hmx, hpre, hall, hfold⟩ := IH b m hrs
      refine ⟨r :: pre, x, post, by rw [heq, List.cons_append], hmx, ?_, ?_, ?_⟩
      · intro p hp
        rcases List.mem_cons.mp hp with rfl | hp
        · exact lt_of_le_of_lt (not_lt.mp hr) hmx
        · exact hpre p hp
      · intro q hq
        rcases List.mem_cons.mp hq with rfl | hq
        · exact le_trans (not_lt.mp hr) (le_of_lt hmx)
        · exact hall q hq
      · rw [List.foldl_cons, searchStep, if_neg hr]
        exact hfold

/-! ## The claims -/

/-- C1 (amended): the inning run total is at most 7, not 6.  The 6-run
cap of `simulate_inning` is only the loop guard: the final at-bat starts
with as many as 5 runs and can add up to 2 more (every rating of this
roster is below 2, so an at-bat gains at most 2 bases and scores at most
the runners on slots 2 and 3), so the returned value can overshoot the
cap by one. -/
theorem simulate_inning_runs_le_seven (players : List String) (us : ℕ → ℚ)
    (fuel : ℕ) (r : ℕ) (h : simulate_inning players us fuel = some r) : r ≤ 7 := by
  unfold simulate_inning at h
  cases hst : inningLoopF players
      (fun n => simulate_at_bat (players.getD (n % players.length) "") (us n))
      fuel initialState with
  | none => rw [hst] at h; simp at h
  | some st =>
    rw [hst, Option.map_some'] at h
    injection h with h
    subst h
    exact inningLoopF_runs_le players _
      (fun n => simulate_at_bat_range _ _) fuel initialState st rfl (by norm_num [initialState]) hst

/-- C1 witness: an unknown batter strikes out three times, for 0 runs. -/
theorem simulate_inning_runs_le_seven_witness :
    simulate_inning ["Nobody"] (fun _ => 0) 5 = some 0 ∧ (0 : ℕ) ≤ 7 :=
  ⟨by simp +decide [simulate_inning, inningLoopF, atBatTransition, initialState,
      simulate_at_bat, PLAYERS, List.lookup],
   simulate_inning_runs_le_seven ["Nobody"] (fun _ => 0) 5 0
    (by simp +decide [simulate_inning, inningLoopF, atBatTransition, initialState,
      simulate_at_bat, PLAYERS, List.lookup])⟩

/-- C1 counterexample: nine Ross singles load the bases and bring the
total to 5 runs with the guard still passing, and an Aidan double then
scores the runners from second and third: the inning returns 7 runs,
exceeding the claimed cap of 6. -/
theorem simulate_inning_seven_runs :
    simulate_inning
        ["Ross", "Ross", "Ross", "Ross", "Ross", "Ross", "Ross", "Ross", "Ross", "Aidan"]
        (fun _ => 0) 20 = some 7 ∧ ¬ (7 : ℕ) ≤ 6 := by
  constructor
  · simp +decide [simulate_inning, inningLoopF, atBatTransition, hitStep, runnerStep,
      initialState, at_bat_Ross, at_bat_Aidan]
  · omega

/-- C2 (amended): along every execution of the inning loop, at most 4 of
the base slots are occupied after each completed at-bat — and 4 is
attained: the claimed bound of 3 fails because a runner reaching exactly
position 3 is parked on the fourth (home) slot without scoring, so a
bases-loaded single leaves all four slots occupied. -/
theorem inningTrace_occ_le_four (players : List String) (g : ℕ → ℤ) (n : ℕ) :
    occ (inningTrace players g n).bases ≤ 4 := by
  rw [← inningTrace_length players g n]
  exact List.countP_le_length _

/-- C2 counterexample: four consecutive Ross singles (draw 0 each time)
leave runners on all four slots — including the home slot — after the
fourth at-bat completes, so more than 3 slots are occupied. -/
theorem inningTrace_four_occupied :
    occ ((inningTrace ["Ross"]
        (fun n => simulate_at_bat (["Ross"].getD (n % ["Ross"].length) "") 0) 4).bases) = 4 ∧
      ¬ occ ((inningTrace ["Ross"]
        (fun n => simulate_at_bat (["Ross"].getD (n % ["Ross"].length) "") 0) 4).bases) ≤ 3 := by
  have h : occ ((inningTrace ["Ross"]
      (fun n => simulate_at_bat (["Ross"].getD (n % ["Ross"].length) "") 0) 4).bases) = 4 := by
    simp +decide [inningTrace, atBatTransition, hitStep, runnerStep, initialState,
      occ, at_bat_Ross]
  exact ⟨h, by omega⟩

/-- C3: the at-bat model does not clamp a negative rating: for the rating
−1.5 (any draw in `[0,1)`, for instance 0.5), `int(-1.5) = -1` and the
fractional part is negative, so no draw is below it and the outcome is
`min(-1, 4) = -1`, outside `{0,1,2,3,4}` — contradicting the docstring
"returning whole bases (0-4)" and the required defensive clamping. -/
theorem at_bat_negative_rating : atBatOutcome (-(3/2) : ℚ) (1/2) = -1 := by
  have hc : (⌈(-(3/2) : ℚ)⌉ : ℤ) = -1 := by
    rw [Int.ceil_neg]
    norm_num
  have ht : truncQ (-(3/2) : ℚ) = -1 := by
    rw [truncQ, if_neg (by norm_num)]
    exact hc
  simp only [atBatOutcome, ht]
  norm_num

/-- C4: the canonical legality filter returns `false` exactly when a run
of strictly more than 3 consecutive men occurs in the sequence itself or
in the sequence extended by its own first 3 elements, and returns `true`
otherwise. -/
theorem is_legal_lineup_spec (lineup : List String) (h : 1 ≤ lineup.length) :
    is_legal_lineup lineup = false ↔
      hasLongMenRun lineup ∨ hasLongMenRun (lineup ++ lineup.take 3) := by
  rw [← scanMen_zero_eq_false_iff, ← scanMen_zero_eq_false_iff]
  unfold is_legal_lineup
  cases scanMen lineup 0 <;> cases scanMen (lineup ++ lineup.take 3) 0 <;> simp

/-- C4 witness: four men in a row followed by a woman is rejected. -/
theorem is_legal_lineup_spec_witness :
    1 ≤ (["Ross", "Brendon", "Aidan", "Robbie", "Lindsey"] : List String).length ∧
      (is_legal_lineup ["Ross", "Brendon", "Aidan", "Robbie", "Lindsey"] = false ↔
        hasLongMenRun ["Ross", "Brendon", "Aidan", "Robbie", "Lindsey"] ∨
        hasLongMenRun (["Ross", "Brendon", "Aidan", "Robbie", "Lindsey"] ++
          (["Ross", "Brendon", "Aidan", "Robbie", "Lindsey"] : List String).take 3)) :=
  ⟨by decide, is_legal_lineup_spec ["Ross", "Brendon", "Aidan", "Robbie", "Lindsey"] (by decide)⟩

/-- C5: the lineup generator returns exactly the legal permutations of
its input: a list is in the output iff it is a permutation of the roster
on which the legality filter evaluates `true`. -/
theorem generate_legal_lineups_spec (all_players L : List String) :
    L ∈ generate_legal_lineups all_players ↔
      L.Perm all_players ∧ is_legal_lineup L = true := by
  simp [generate_legal_lineups, List.mem_filter, List.mem_permutations]

/-- C6: the windowed legality filter of the test script is vacuous: a
window of 3 positions can contain at most 3 men, so the `> 3` check never
fires and every input passes. -/
theorem test_filter_vacuous (lineup : List String) :
    TestScript.is_legal_lineup lineup = true := by
  rw [TestScript.is_legal_lineup, List.all_eq_true]
  intro i _
  rw [decide_eq_true_iff]
  exact le_trans (List.countP_le_length _) (by simp)

/-- C7: for every batting list and every at-bat outcome stream in
`{0,1,2,3,4}`, fuel 14 already suffices for the inning loop to return:
either the batting list is empty (0 runs), or the loop stopped because 3
outs were reached or the run total reached the 6-run cap. -/
theorem inning_terminates (players : List String) (g : ℕ → ℤ)
    (hg : ∀ n, 0 ≤ g n ∧ g n ≤ 4) :
    ∃ st, inningLoopF players g 14 initialState = some st ∧
      (players = [] → st.runs = 0) ∧
      (players ≠ [] → 3 ≤ st.outs ∨ 6 ≤ st.runs) := by
  by_cases hne : players = []
  · refine ⟨initialState, ?_, fun _ => rfl, fun h => absurd hne h⟩
    subst hne
    rfl
  · obtain ⟨st, hst⟩ := inningLoopF_total players g hg hne 14 initialState
      (by rfl) (by simp [initialState, occ])
    have hexit := inningLoopF_exit players g 14 initialState st hst
    exact ⟨st, hst, fun h => absurd h hne, fun _ => hexit.resolve_left hne⟩

/-- C7 witness: the all-outs outcome stream over a singleton batting
list. -/
theorem inning_terminates_witness :
    ∃ st, inningLoopF ["Ross"] (fun _ => 0) 14 initialState = some st ∧
      ((["Ross"] : List String) = [] → st.runs = 0) ∧
      ((["Ross"] : List String) ≠ [] → 3 ≤ st.outs ∨ 6 ≤ st.runs) :=
  inning_terminates ["Ross"] (fun _ => 0) (fun _ => ⟨le_refl 0, by norm_num⟩)

/-- C8: a player identifier missing from the roster mapping is an
automatic out: the at-bat returns 0 for every state of the random
source, without any error. -/
theorem unknown_player_out (player_name : String) (u : ℚ)
    (h : PLAYERS.lookup player_name = none) : simulate_at_bat player_name u = 0 := by
  unfold simulate_at_bat
  rw [h]

/-- C8 witness: `Srishti` is commented out of the roster, so her at-bats
are automatic outs. -/
theorem unknown_player_out_witness :
    PLAYERS.lookup "Srishti" = none ∧ simulate_at_bat "Srishti" (1/2) = 0 :=
  ⟨by decide, unknown_player_out "Srishti" (1/2) (by decide)⟩

/-- C9: the search driver starts from best-average 0 and `None`, updating
only on strict improvement, so: if every evaluated lineup averages
exactly 0, no lineup ever becomes best and the result is the initial
`(None, 0)`; otherwise the reported best average is the maximum over the
evaluated lineups and the reported lineup is its earliest attainer in
evaluation order (all earlier entries are strictly below it). -/
theorem find_best_fold_spec (results : List (List String × ℚ))
    (hnn : ∀ r ∈ results, 0 ≤ r.2) :
    ((∀ r ∈ results, r.2 = 0) → find_best_fold results = (none, 0)) ∧
    ((∃ r ∈ results, r.2 ≠ 0) →
      ∃ pre x post, results = pre ++ x :: post ∧
        (∀ p ∈ pre, p.2 < x.2) ∧ (∀ r ∈ results, r.2 ≤ x.2) ∧
        find_best_fold results = (some x.1, x.2)) := by
  constructor
  · intro hz
    exact foldl_searchStep_const results none 0 fun r hr => le_of_eq (hz r hr)
  · rintro ⟨r, hr, hne⟩
    have hpos : (0 : ℚ) < r.2 := lt_of_le_of_ne (hnn r hr) (Ne.symm hne)
    obtain ⟨pre, x, post, heq, _, hpre, hall, hfold⟩ :=
      foldl_searchStep_max results none 0 ⟨r, hr, hpos⟩
    exact ⟨pre, x, post, heq, hpre, hall, hfold⟩

/-- C9 witness: a single all-zero evaluation leaves the best lineup at
`None`. -/
theorem find_best_fold_spec_witness :
    find_best_fold [(["Kate"], 0)] = (none, 0) :=
  (find_best_fold_spec [(["Kate"], (0 : ℚ))] (by norm_num)).1 (by norm_num)

/-- C10: the first (linear) scan of the canonical legality filter is
redundant: the filter agrees with the wraparound scan alone, because any
long run of men in the plain sequence is also a long run in the sequence
extended by its own first 3 elements. -/
theorem first_scan_redundant (lineup : List String) :
    is_legal_lineup lineup = scanMen (lineup ++ lineup.take 3) 0 := by
  unfold is_legal_lineup
  cases h : scanMen lineup 0 with
  | false =>
    have h2 : scanMen (lineup ++ lineup.take 3) 0 = false := by
      rw [scanMen_zero_eq_false_iff] at h ⊢
      exact hasLongMenRun_append _ _ h
    rw [h2]
    rfl
  | true => rw [Bool.true_and]
